import Mathlib

/-!
Verification of the RayTL `chain` container (circular doubly-linked list
with cursor) against its natural-language specification.

The repository ships the public header `src/chain.h` (types `link_t`,
`chain_t` and the operation declarations) and the test driver
`src/test/test_chain.c`, but the implementation file `chain.c` itself is
not present under `src/`.  The operations are therefore modelled from the
specification's own description of each operation (spec sections 3, 4.1,
4.2, 4.3), at the level of abstraction the spec uses: a ring of links held
in forward order, a cursor, an origin anchor, a length counter, and a
destructor policy.

Modelling conventions, shared by every definition below:
* a link's `data` field (`void *` in `link_t`) is `Option α`; `none` is
  the "empty payload" sentinel (the null pointer);
* the ring is represented as the list of member links in forward (`next`)
  order anchored at the origin, so the origin `orig` is always the link at
  index 0 and the cursor `link` is the link at index `cur`;
* neighbour pointers of the ring of `n` links are the index maps
  `nextIdx n` and `prevIdx n` (successor / predecessor modulo `n`);
* the post-`clear` retained placeholder state (a single self-linked link
  with empty payload that is not counted in `length`) is flagged by `ph`;
* the destructor policy is modelled by the ghost field `destroyed`: the
  list of payloads passed to the destructor callback, in call order.
-/

namespace RayTL

/-- Error taxonomy of the chain engine (spec section 7); only the
errors reachable in the model are represented. -/
inductive ChainErr where
  | emptyChain
  | allocation
deriving DecidableEq, Repr

/-- Modelled from the spec: the chain state (`chain_t` of `src/chain.h`:
cursor `link`, origin `orig`, `length`), since `chain.c` is not under
`src/`.  `links` is the ring in forward order anchored at the origin
(origin = index 0, cursor = index `cur`); `ph` marks the retained
placeholder left by `clear` (one empty self-linked slot, counted length
0); `destroyed` is the ghost trace of payloads handed to the destructor. -/
structure Chain (α : Type) where
  links : List (Option α)
  cur : Nat
  ph : Bool
  destroyed : List α
deriving DecidableEq, Repr

variable {α : Type}

/-- Number of links currently in the ring (`chain->length`); the
placeholder slot after `clear` is not counted. -/
def Chain.length (c : Chain α) : Nat :=
  if c.ph then 0 else c.links.length

/-- The payloads attached to links of the ring, in forward order from the
origin (empty slots carry no payload). -/
def Chain.payloads (c : Chain α) : List α :=
  c.links.filterMap id

/-- Successor index in a ring of `n` links: the `next` pointer of the
link at index `i`. -/
def nextIdx (n i : Nat) : Nat := (i + 1) % n

/-- Predecessor index in a ring of `n` links: the `prev` pointer of the
link at index `i`. -/
def prevIdx (n i : Nat) : Nat := (i + n - 1) % n

/-- Structural well-formedness of a chain state: the placeholder state is
exactly one empty slot with cursor on it; otherwise the cursor index is a
member of the ring (or 0 when there is no ring at all). -/
def WF (c : Chain α) : Prop :=
  (c.ph = true → c.links = [none] ∧ c.cur = 0) ∧
  (c.ph = false → (c.links = [] → c.cur = 0) ∧
    (c.links ≠ [] → c.cur < c.links.length))

instance (c : Chain α) [DecidableEq α] : Decidable (WF c) := by
  unfold WF; infer_instance

/-- Modelled from the spec: `chain_create` — a new chain with zero links
(cursor and origin absent), nothing destroyed yet. -/
def chain_create : Chain α := ⟨[], 0, false, []⟩

/-- Modelled from the spec: `chain_insert` — allocates one new link
holding `data`, splices it immediately after the cursor and moves the
cursor to it; on an empty chain the new link becomes both origin and
cursor, a self-linked ring of one.  `length` grows by one. -/
def chain_insert (c : Chain α) (d : Option α) : Chain α :=
  if c.length = 0 then ⟨[d], 0, false, c.destroyed⟩
  else ⟨c.links.take (c.cur + 1) ++ d :: c.links.drop (c.cur + 1),
        c.cur + 1, false, c.destroyed⟩

/-- Modelled from the spec: `chain_delete` — removes the cursor link,
invoking the destructor on its payload; the cursor moves to the previous
link; deleting the last link leaves cursor and origin absent.  Signals
`EmptyChainError` on an empty chain. -/
def chain_delete (c : Chain α) : Except ChainErr (Chain α) :=
  if c.length = 0 then .error .emptyChain
  else if c.links.length = 1 then
    .ok ⟨[], 0, false, c.destroyed ++ (c.links.getD c.cur none).toList⟩
  else if c.cur = 0 then
    -- deleting the origin: the ring re-anchors at the next link
    -- forward and the cursor lands on the previous link (the last)
    .ok ⟨c.links.eraseIdx 0, c.links.length - 2, false,
         c.destroyed ++ (c.links.getD c.cur none).toList⟩
  else
    .ok ⟨c.links.eraseIdx c.cur, c.cur - 1, false,
         c.destroyed ++ (c.links.getD c.cur none).toList⟩

/-- Modelled from the spec: `chain_clear` — removes every link, invoking
the destructor on each attached payload, and leaves the documented end
state (b): a retained placeholder link with empty payload, cursor equal
to origin, length 0. -/
def chain_clear (c : Chain α) : Chain α :=
  ⟨[none], 0, true, c.destroyed ++ c.payloads⟩

/-- Modelled from the spec: `chain_destroy` — `clear` followed by release
of the chain storage; the observable outcome is the final destructor
trace. -/
def chain_destroy (c : Chain α) : List α :=
  (chain_clear c).destroyed

/-- Modelled from the spec: `chain_move` — advances the cursor `n` steps
forward (negative `n`: backward), wrapping circularly modulo `length`;
no-op on an empty chain.  `chain_forward` and `chain_rewind` of the test
driver are this primitive with the sign fixed. -/
def chain_move (c : Chain α) (n : Int) : Chain α :=
  if c.length = 0 then c
  else { c with cur := (((c.cur : Int) + n) % (c.length : Int)).toNat }

/-- Modelled from the spec: `chain_reset` — sets the cursor back to the
origin (index 0); always succeeds. -/
def chain_reset (c : Chain α) : Chain α :=
  { c with cur := 0 }

/-- Modelled from the spec: `chain_trim` — one forward pass removing
every link whose `data` is the empty sentinel, never invoking the
destructor; survivors keep their relative circular order.  Origin and
cursor are reassigned to the nearest surviving link continuing forward
from their old positions; if nothing survives, both become absent.
The nearest survivor forward from the origin is the first surviving link
of the anchored list, so the surviving list stays origin-anchored; the
cursor's survivor is the first attached link at index `≥ cur`, or, only
when there is none, the first attached link overall (wrap-around). -/
def chain_trim (c : Chain α) : Chain α :=
  if c.length = 0 then c
  else if (c.links.filter Option.isSome).isEmpty then ⟨[], 0, false, c.destroyed⟩
  else ⟨c.links.filter Option.isSome,
        if (c.links.drop c.cur).any Option.isSome
          then (c.links.take c.cur).countP Option.isSome
          else 0,
        false, c.destroyed⟩

/-- Modelled from the spec: `chain_sort` — collects the links in ring
order, sorts them by the caller's ascending three-way comparator with a
stable comparison sort, re-wires the ring to the sorted sequence and
re-anchors both origin and cursor at the first-ranked link. -/
def chain_sort (c : Chain α) (cmp : Option α → Option α → Int) : Chain α :=
  if c.length = 0 then c
  else ⟨c.links.insertionSort (fun a b => cmp a b ≤ 0), 0, false, c.destroyed⟩

/-- Chains reachable from `create` by any sequence of the public
operations (a successful `delete` continues with the returned state). -/
inductive Reachable : Chain α → Prop where
  | create : Reachable chain_create
  | insert {c : Chain α} (d : Option α) :
      Reachable c → Reachable (chain_insert c d)
  | delete {c c2 : Chain α} :
      Reachable c → chain_delete c = .ok c2 → Reachable c2
  | clear {c : Chain α} : Reachable c → Reachable (chain_clear c)
  | move {c : Chain α} (n : Int) : Reachable c → Reachable (chain_move c n)
  | reset {c : Chain α} : Reachable c → Reachable (chain_reset c)
  | trim {c : Chain α} : Reachable c → Reachable (chain_trim c)
  | sort {c : Chain α} (cmp : Option α → Option α → Int) :
      Reachable c → Reachable (chain_sort c cmp)

/-- Scenario fixture from `test_chain.c` ("advanced chain functions"):
102 inserts, with a payload (its index) attached only at indices
divisible by 3. -/
def sparse102 : Chain Nat :=
  (List.range 102).foldl
    (fun ch i => chain_insert ch (if i % 3 = 0 then some i else none))
    chain_create

/-- Scenario fixture from `test_chain.c`: the ten payload ids inserted
before sorting. -/
def idsChain : Chain Nat :=
  ([11, 77, 97, 22, 88, 99, 33, 55, 44, 66] : List Nat).foldl
    (fun ch i => chain_insert ch (some i)) chain_create

/-- Comparator of the sort scenario (`payload_compare` of `test_chain.c`):
ascending three-way comparison of numeric ids. -/
def cmpIds (a b : Option Nat) : Int :=
  (a.getD 0 : Int) - (b.getD 0 : Int)

/-- Concrete three-link chain (payloads 1, 2, 3; cursor on the middle
link) used as the input of the witness theorems. -/
def demo3 : Chain Nat := ⟨[some 1, some 2, some 3], 1, false, []⟩

/-! ### Helper lemmas -/

theorem length_with_cur (c : Chain α) (k : Nat) :
    Chain.length { c with cur := k } = c.length := rfl

theorem chain_ext {c d : Chain α} (hl : c.links = d.links) (hc : c.cur = d.cur)
    (hp : c.ph = d.ph) (hd : c.destroyed = d.destroyed) : c = d := by
  cases c; cases d
  simp only [Chain.mk.injEq]
  exact ⟨hl, hc, hp, hd⟩

theorem move_links (c : Chain α) (n : Int) : (chain_move c n).links = c.links := by
  unfold chain_move; split <;> rfl

theorem move_ph (c : Chain α) (n : Int) : (chain_move c n).ph = c.ph := by
  unfold chain_move; split <;> rfl

theorem move_destroyed (c : Chain α) (n : Int) :
    (chain_move c n).destroyed = c.destroyed := by
  unfold chain_move; split <;> rfl

theorem move_length (c : Chain α) (n : Int) :
    Chain.length (chain_move c n) = c.length := by
  unfold chain_move; split <;> rfl

theorem move_cur (c : Chain α) (n : Int) (h : 0 < c.length) :
    (chain_move c n).cur = (((c.cur : Int) + n) % (c.length : Int)).toNat := by
  unfold chain_move
  rw [if_neg (by omega)]

theorem emod_add_cancel (a b m : Int) : (a % m + b) % m = (a + b) % m := by
  rw [Int.add_emod, Int.emod_emod_of_dvd _ dvd_rfl, ← Int.add_emod]

/-! ### Claim theorems -/

/-- C8: the traversal operations `move` and `reset` change only the cursor
field: the ring membership and linkage (the anchored `links` list), every
link's data, the placeholder flag, the destructor trace, the length, and
the identity of the origin (the link at index 0) are all unchanged;
`reset` sets the cursor to the origin and always succeeds. -/
theorem C8_traversal_frame (c : Chain α) (n : Int) :
    (chain_move c n).links = c.links ∧
    (chain_move c n).ph = c.ph ∧
    (chain_move c n).destroyed = c.destroyed ∧
    Chain.length (chain_move c n) = c.length ∧
    (chain_reset c).links = c.links ∧
    (chain_reset c).ph = c.ph ∧
    (chain_reset c).destroyed = c.destroyed ∧
    Chain.length (chain_reset c) = c.length ∧
    (chain_reset c).cur = 0 := by
  unfold chain_move chain_reset
  split <;> simp [Chain.length]

/-- C9: `clear` leaves length 0 and the retained-placeholder end state:
a single self-referential link (its successor and predecessor indices are
itself) with empty payload remains, cursor equal to origin and both
present, and a subsequent `insert` grafts onto it, producing a ring of
one holding the new payload. -/
theorem C9_clear_placeholder (c : Chain α) (d : Option α) :
    Chain.length (chain_clear c) = 0 ∧
    (chain_clear c).links = [none] ∧
    (chain_clear c).cur = 0 ∧
    (chain_clear c).links ≠ [] ∧
    nextIdx (chain_clear c).links.length 0 = 0 ∧
    prevIdx (chain_clear c).links.length 0 = 0 ∧
    Chain.length (chain_insert (chain_clear c) d) = 1 ∧
    (chain_insert (chain_clear c) d).links = [d] ∧
    (chain_insert (chain_clear c) d).cur = 0 := by
  refine ⟨rfl, rfl, rfl, by simp [chain_clear], by simp [chain_clear, nextIdx],
    by simp [chain_clear, prevIdx], ?_, ?_, ?_⟩ <;>
    simp [chain_insert, chain_clear, Chain.length]

/-- C7: for a populated chain, `move n` followed by `move (-n)` is the
identity (the whole state, in particular the cursor link, is restored),
and moving `length` steps in either direction returns to the starting
link (wrap-around modulo `length`). -/
theorem C7_move_roundtrip (c : Chain α) (n : Int) (h0 : 0 < c.length)
    (hc : c.cur < c.length) :
    chain_move (chain_move c n) (-n) = c ∧
    chain_move c (c.length : Int) = c ∧
    chain_move c (-(c.length : Int)) = c := by
  have hne : (c.length : Int) ≠ 0 := by exact_mod_cast Nat.pos_iff_ne_zero.mp h0
  have hpos : (0 : Int) < (c.length : Int) := by exact_mod_cast h0
  have hcur : ((c.cur : Int)) % (c.length : Int) = c.cur :=
    Int.emod_eq_of_lt (by positivity) (by exact_mod_cast hc)
  have h0m : 0 < Chain.length (chain_move c n) := by rw [move_length]; exact h0
  refine ⟨?_, ?_, ?_⟩
  · refine chain_ext (by rw [move_links, move_links]) ?_
      (by rw [move_ph, move_ph]) (by rw [move_destroyed, move_destroyed])
    rw [move_cur _ _ h0m, move_cur _ _ h0, move_length]
    have hnn : 0 ≤ ((c.cur : Int) + n) % (c.length : Int) := Int.emod_nonneg _ hne
    have key : ((((((c.cur : Int) + n) % (c.length : Int)).toNat : Int)) + -n) %
        (c.length : Int) = (c.cur : Int) := by
      rw [Int.toNat_of_nonneg hnn, emod_add_cancel]
      have hsimp : (c.cur : Int) + n + -n = (c.cur : Int) := by ring
      rw [hsimp, hcur]
    omega
  · refine chain_ext (by rw [move_links]) ?_ (by rw [move_ph]) (by rw [move_destroyed])
    rw [move_cur _ _ h0]
    have key : ((c.cur : Int) + (c.length : Int)) % (c.length : Int) = c.cur := by
      have hrw : (c.cur : Int) + (c.length : Int) =
          (c.cur : Int) + (c.length : Int) * 1 := by ring
      rw [hrw, Int.add_mul_emod_self_left, hcur]
    omega
  · refine chain_ext (by rw [move_links]) ?_ (by rw [move_ph]) (by rw [move_destroyed])
    rw [move_cur _ _ h0]
    have key : ((c.cur : Int) + -(c.length : Int)) % (c.length : Int) = c.cur := by
      have hrw : (c.cur : Int) + -(c.length : Int) =
          (c.cur : Int) + (c.length : Int) * (-1) := by ring
      rw [hrw, Int.add_mul_emod_self_left, hcur]
    omega

theorem eraseIdx_append_cons (l1 l2 : List β) (a : β) :
    (l1 ++ a :: l2).eraseIdx l1.length = l1 ++ l2 := by
  induction l1 with
  | nil => rfl
  | cons x xs ih => simpa [List.eraseIdx_cons_succ] using ih

theorem wf_cur_lt {c : Chain α} (h : WF c) (h0 : 0 < c.length) :
    c.cur < c.links.length ∧ c.ph = false ∧ c.links ≠ [] := by
  have hph : c.ph = false := by
    by_contra hcon
    have : c.ph = true := by revert hcon; cases hp : c.ph <;> simp
    simp [Chain.length, this] at h0
  have hlen : c.links.length = c.length := by simp [Chain.length, hph]
  have hnil : c.links ≠ [] := by
    intro hcon
    rw [hcon] at hlen
    simp at hlen
    omega
  exact ⟨(h.2 hph).2 hnil, hph, hnil⟩

/-- C1: `insert` adds exactly one new link holding the given payload,
spliced immediately after the current cursor (erasing the new index
restores the old ring, the old cursor link is untouched one step before),
moves the cursor to the new link, and increments `length` by exactly one;
inserting into an empty chain makes the new link both origin and cursor,
self-linked as a ring of one. -/
theorem C1_insert_spec (c : Chain α) (d : Option α) (h : WF c) :
    Chain.length (chain_insert c d) = c.length + 1 ∧
    (chain_insert c d).links.getD (chain_insert c d).cur none = d ∧
    (c.length = 0 →
      (chain_insert c d).links = [d] ∧ (chain_insert c d).cur = 0 ∧
      nextIdx (Chain.length (chain_insert c d)) 0 = 0 ∧
      prevIdx (Chain.length (chain_insert c d)) 0 = 0) ∧
    (0 < c.length →
      (chain_insert c d).cur = c.cur + 1 ∧
      (chain_insert c d).links.eraseIdx (c.cur + 1) = c.links ∧
      (chain_insert c d).links.getD c.cur none = c.links.getD c.cur none) := by
  by_cases h0 : c.length = 0
  · unfold chain_insert
    rw [if_pos h0]
    refine ⟨by rw [h0]; rfl, by simp, fun _ => ?_, fun hcon => by omega⟩
    exact ⟨rfl, rfl, by simp [Chain.length, nextIdx], by simp [Chain.length, prevIdx]⟩
  · have hpos : 0 < c.length := by omega
    obtain ⟨hcur, hph, hnil⟩ := wf_cur_lt h hpos
    have hlen : c.links.length = c.length := by simp [Chain.length, hph]
    have htk : (c.links.take (c.cur + 1)).length = c.cur + 1 := by
      simp [List.length_take]
      omega
    unfold chain_insert
    rw [if_neg h0]
    refine ⟨?_, ?_, fun hcon => by omega, fun _ => ⟨rfl, ?_, ?_⟩⟩
    · show Chain.length ⟨_, _, _, _⟩ = c.length + 1
      rw [← hlen]
      simp only [Chain.length, List.length_append, htk, List.length_cons,
        List.length_drop, if_neg (by simp : ¬ (false = true))]
      omega
    · show (c.links.take (c.cur + 1) ++ d :: c.links.drop (c.cur + 1)).getD
        (c.cur + 1) none = d
      rw [List.getD_eq_getElem?_getD, List.getElem?_append]
      rw [if_neg (by omega), htk]
      simp
    · show (c.links.take (c.cur + 1) ++ d :: c.links.drop (c.cur + 1)).eraseIdx
        (c.cur + 1) = c.links
      have he := eraseIdx_append_cons (c.links.take (c.cur + 1))
        (c.links.drop (c.cur + 1)) d
      rw [htk, List.take_append_drop] at he
      exact he
    · show (c.links.take (c.cur + 1) ++ d :: c.links.drop (c.cur + 1)).getD
        c.cur none = c.links.getD c.cur none
      rw [List.getD_eq_getElem?_getD, List.getElem?_append, if_pos (by omega),
        List.getElem?_take, if_pos (by omega), ← List.getD_eq_getElem?_getD]

/-- C2: on a non-empty chain, `delete` removes exactly the current cursor
link (the surviving ring is the old one with the cursor index erased),
hands its payload to the destructor, and decrements `length` by one; the
cursor lands on the previous link (when one remains), and deleting the
last link leaves cursor and origin absent with length 0; on an empty
chain `delete` signals `EmptyChainError` and returns no new state. -/
theorem C2_delete_spec (c : Chain α) (h : WF c) :
    (c.length = 0 → chain_delete c = .error .emptyChain) ∧
    (0 < c.length → ∃ c2, chain_delete c = .ok c2 ∧
      Chain.length c2 = c.length - 1 ∧
      c2.links = c.links.eraseIdx c.cur ∧
      c2.destroyed = c.destroyed ++ (c.links.getD c.cur none).toList ∧
      (c.length = 1 → c2.links = [] ∧ c2.ph = false ∧ Chain.length c2 = 0) ∧
      (2 ≤ c.length → c2.cur < Chain.length c2 ∧
        c2.links.getD c2.cur none =
          c.links.getD (prevIdx c.length c.cur) none)) := by
  constructor
  · intro h0
    unfold chain_delete
    rw [if_pos h0]
  · intro hpos
    obtain ⟨hcur, hph, hnil⟩ := wf_cur_lt h hpos
    have hlen : c.links.length = c.length := by simp [Chain.length, hph]
    rw [← hlen] at hpos ⊢
    unfold chain_delete
    rw [if_neg (by omega)]
    by_cases hl1 : c.links.length = 1
    · rw [if_pos hl1]
      have hnillinks : (c.links.eraseIdx c.cur).length = 0 := by
        rw [List.length_eraseIdx, if_pos (by omega)]
        omega
      refine ⟨_, rfl, by simp [Chain.length]; omega, ?_, rfl,
        fun _ => ⟨rfl, rfl, rfl⟩, fun hcon => by omega⟩
      exact (List.length_eq_zero.mp hnillinks).symm
    · rw [if_neg hl1]
      have hge2 : 2 ≤ c.links.length := by omega
      by_cases hc0 : c.cur = 0
      · rw [if_pos hc0]
        have herase : (c.links.eraseIdx 0).length = c.links.length - 1 := by
          rw [List.length_eraseIdx, if_pos (by omega)]
        refine ⟨_, rfl, by simp [Chain.length, herase], by rw [hc0],
          rfl, fun hcon => by omega, fun _ => ⟨?_, ?_⟩⟩
        · simp [Chain.length, herase]
          omega
        · show (c.links.eraseIdx 0).getD (c.links.length - 2) none =
            c.links.getD (prevIdx c.links.length c.cur) none
          have hprev : prevIdx c.links.length c.cur = c.links.length - 1 := by
            unfold prevIdx
            rw [hc0]
            have hrw : 0 + c.links.length - 1 = c.links.length - 1 := by omega
            rw [hrw, Nat.mod_eq_of_lt (by omega)]
          rw [hprev, List.getD_eq_getElem?_getD, List.getD_eq_getElem?_getD,
            List.eraseIdx_zero, List.getElem?_tail]
          congr 2
          omega
      · rw [if_neg hc0]
        have herase : (c.links.eraseIdx c.cur).length = c.links.length - 1 := by
          rw [List.length_eraseIdx, if_pos (by omega)]
        refine ⟨_, rfl, by simp [Chain.length, herase], rfl, rfl,
          fun hcon => by omega, fun _ => ⟨?_, ?_⟩⟩
        · simp [Chain.length, herase]
          omega
        · show (c.links.eraseIdx c.cur).getD (c.cur - 1) none =
            c.links.getD (prevIdx c.links.length c.cur) none
          have hprev : prevIdx c.links.length c.cur = c.cur - 1 := by
            unfold prevIdx
            have hrw : c.cur + c.links.length - 1 = c.cur - 1 + c.links.length := by
              omega
            rw [hrw, Nat.add_mod_right, Nat.mod_eq_of_lt (by omega)]
          rw [hprev, List.getD_eq_getElem?_getD, List.getD_eq_getElem?_getD,
            List.getElem?_eraseIdx_of_lt _ _ _ (by omega)]

theorem insert_length (c : Chain α) (d : Option α) (h : WF c) :
    Chain.length (chain_insert c d) = c.length + 1 := by
  by_cases h0 : c.length = 0
  · unfold chain_insert
    rw [if_pos h0, h0]
    rfl
  · have hpos : 0 < c.length := by omega
    obtain ⟨hcur, hph, hnil⟩ := wf_cur_lt h hpos
    have hlen : c.links.length = c.length := by simp [Chain.length, hph]
    unfold chain_insert
    rw [if_neg h0, ← hlen]
    simp only [Chain.length, List.length_append, List.length_take,
      List.length_cons, List.length_drop, if_neg (by simp : ¬ (false = true))]
    omega

theorem insert_cursor_getD (c : Chain α) (d : Option α) (h : WF c) :
    (chain_insert c d).links.getD (chain_insert c d).cur none = d := by
  by_cases h0 : c.length = 0
  · unfold chain_insert
    rw [if_pos h0]
    rfl
  · have hpos : 0 < c.length := by omega
    obtain ⟨hcur, hph, hnil⟩ := wf_cur_lt h hpos
    have htk : (c.links.take (c.cur + 1)).length = c.cur + 1 := by
      simp [List.length_take]
      omega
    unfold chain_insert
    rw [if_neg h0]
    show (c.links.take (c.cur + 1) ++ d :: c.links.drop (c.cur + 1)).getD
      (c.cur + 1) none = d
    rw [List.getD_eq_getElem?_getD, List.getElem?_append,
      if_neg (by omega), htk]
    simp

theorem links_eq_nil_of_len0 {c : Chain α} (hph : c.ph = false)
    (h0 : c.length = 0) : c.links = [] := by
  simp [Chain.length, hph] at h0
  exact h0

theorem trim_links (c : Chain α) (hph : c.ph = false) :
    (chain_trim c).links = c.links.filter Option.isSome := by
  unfold chain_trim
  by_cases h0 : c.length = 0
  · rw [if_pos h0, links_eq_nil_of_len0 hph h0]
    rfl
  · rw [if_neg h0]
    by_cases hs : (c.links.filter Option.isSome).isEmpty
    · rw [if_pos hs]
      exact (List.isEmpty_iff.mp hs).symm
    · rw [if_neg hs]

theorem trim_destroyed (c : Chain α) :
    (chain_trim c).destroyed = c.destroyed := by
  unfold chain_trim
  split
  · rfl
  · split <;> rfl

theorem trim_ph (c : Chain α) (hph : c.ph = false) :
    (chain_trim c).ph = false := by
  unfold chain_trim
  split
  · exact hph
  · split <;> rfl

theorem trim_length (c : Chain α) (hph : c.ph = false) :
    Chain.length (chain_trim c) = c.links.countP Option.isSome := by
  have hl := trim_links c hph
  have hp := trim_ph c hph
  simp [Chain.length, hp, hl, List.countP_eq_length_filter]

set_option maxRecDepth 40000

/-- C4: `trim` removes, in one forward pass in link order, exactly the
links carrying the empty sentinel: the surviving ring is the in-order
filter of the attached links, and the new length counts them; in the
sparse-102 scenario of the test driver the trimmed length is 34 and
moving forward 33 steps from the post-trim origin lands on the payload
value 99. -/
theorem C4_trim_spec (c : Chain α) (hph : c.ph = false) :
    (chain_trim c).links = c.links.filter Option.isSome ∧
    Chain.length (chain_trim c) = c.links.countP Option.isSome ∧
    (chain_trim c).destroyed = c.destroyed ∧
    Chain.length (chain_trim sparse102) = 34 ∧
    (chain_move (chain_reset (chain_trim sparse102)) 33).links.getD
      (chain_move (chain_reset (chain_trim sparse102)) 33).cur none =
      some 99 := by
  refine ⟨trim_links c hph, trim_length c hph, trim_destroyed c, ?_, ?_⟩
  · decide
  · decide

/-- C10: at the public interface the "empty payload" sentinel is the null
pointer: `insert` accepts a null `data` argument and creates a link whose
payload is null (and still counts it in `length`), while `trim` removes
exactly the null-payload links — every surviving link is non-null, the
survivors are a sublist of the old ring, and every non-null link is
kept. -/
theorem C10_null_sentinel (c : Chain α) (h : WF c) (hph : c.ph = false) :
    (chain_insert c none).links.getD (chain_insert c none).cur none = none ∧
    Chain.length (chain_insert c none) = c.length + 1 ∧
    (∀ d ∈ (chain_trim c).links, d.isSome) ∧
    (chain_trim c).links.Sublist c.links ∧
    (chain_trim c).links.countP Option.isSome =
      c.links.countP Option.isSome := by
  have h1 := insert_cursor_getD c none h
  have h2 := insert_length c none h
  have hl := trim_links c hph
  refine ⟨h1, h2, ?_, ?_, ?_⟩
  · intro d hd
    rw [hl] at hd
    exact List.of_mem_filter hd
  · rw [hl]
    exact List.filter_sublist c.links
  · rw [hl, List.countP_eq_length_filter, List.countP_eq_length_filter,
      List.filter_filter]
    simp

theorem delete_fields {c c2 : Chain α} (h : WF c)
    (hok : chain_delete c = .ok c2) :
    0 < c.length ∧ c2.links = c.links.eraseIdx c.cur ∧
    c2.destroyed = c.destroyed ++ (c.links.getD c.cur none).toList := by
  have hpos : 0 < c.length := by
    by_contra hcon
    have h0 : c.length = 0 := by omega
    unfold chain_delete at hok
    rw [if_pos h0] at hok
    cases hok
  obtain ⟨hcur, hph, hnil⟩ := wf_cur_lt h hpos
  refine ⟨hpos, ?_⟩
  unfold chain_delete at hok
  rw [if_neg (by omega)] at hok
  by_cases hl1 : c.links.length = 1
  · rw [if_pos hl1] at hok
    injection hok with hok
    subst hok
    refine ⟨?_, rfl⟩
    have hzero : (c.links.eraseIdx c.cur).length = 0 := by
      rw [List.length_eraseIdx, if_pos (by omega)]
      omega
    exact (List.length_eq_zero.mp hzero).symm
  · rw [if_neg hl1] at hok
    by_cases hc0 : c.cur = 0
    · rw [if_pos hc0] at hok
      injection hok with hok
      subst hok
      exact ⟨by rw [hc0], rfl⟩
    · rw [if_neg hc0] at hok
      injection hok with hok
      subst hok
      exact ⟨rfl, rfl⟩

/-- C3: destructor accounting — a link removed by `delete` hands its
payload to the destructor exactly once (the trace grows by exactly that
payload and stays duplicate-free), `clear` and `destroy` hand over
exactly the payloads still attached, no payload still in the ring is
ever in the destructor trace, and `trim` never touches the trace. -/
theorem C3_destructor_accounting (c : Chain α) (h : WF c)
    (hnd : (c.payloads ++ c.destroyed).Nodup) :
    (∀ c2, chain_delete c = .ok c2 →
      c2.destroyed = c.destroyed ++ (c.links.getD c.cur none).toList ∧
      (c2.payloads ++ (c.links.getD c.cur none).toList).Perm c.payloads ∧
      (c2.payloads ++ c2.destroyed).Nodup ∧
      (∀ a ∈ c2.payloads, a ∉ c2.destroyed)) ∧
    ((chain_clear c).destroyed = c.destroyed ++ c.payloads ∧
      (chain_clear c).payloads = [] ∧
      ((chain_clear c).payloads ++ (chain_clear c).destroyed).Nodup) ∧
    chain_destroy c = c.destroyed ++ c.payloads ∧
    (chain_trim c).destroyed = c.destroyed := by
  refine ⟨?_, ⟨rfl, rfl, ?_⟩, rfl, trim_destroyed c⟩
  · intro c2 hok
    obtain ⟨hpos, hL, hD⟩ := delete_fields h hok
    obtain ⟨hcur, hph, hnil⟩ := wf_cur_lt h hpos
    have htake : (c.links.take c.cur).length = c.cur := by
      simp [List.length_take]
      omega
    have hsplit : c.links = c.links.take c.cur ++
        c.links.getD c.cur none :: c.links.drop (c.cur + 1) := by
      conv_lhs => rw [← List.take_append_drop c.cur c.links]
      congr 1
      rw [List.getD_eq_getElem _ _ hcur, List.getElem_cons_drop]
    have herase : c.links.eraseIdx c.cur =
        c.links.take c.cur ++ c.links.drop (c.cur + 1) := by
      have he := eraseIdx_append_cons (c.links.take c.cur)
        (c.links.drop (c.cur + 1)) (c.links.getD c.cur none)
      rw [htake] at he
      conv_lhs => rw [hsplit]
      exact he
    have hpay : c.payloads = (c.links.take c.cur).filterMap id ++
        ((c.links.getD c.cur none).toList ++
          (c.links.drop (c.cur + 1)).filterMap id) := by
      show c.links.filterMap id = _
      conv_lhs => rw [hsplit]
      rw [List.filterMap_append]
      congr 1
      cases hxv : c.links.getD c.cur none <;> simp
    have hp2 : c2.payloads = (c.links.take c.cur).filterMap id ++
        (c.links.drop (c.cur + 1)).filterMap id := by
      show c2.links.filterMap id = _
      rw [hL, herase, List.filterMap_append]
    have hperm : (c2.payloads ++ (c.links.getD c.cur none).toList).Perm
        c.payloads := by
      rw [hp2, hpay, List.append_assoc]
      exact List.Perm.append_left _ List.perm_append_comm
    have step1 : (c2.payloads ++ (c.destroyed ++
        (c.links.getD c.cur none).toList)).Perm
        (c2.payloads ++ ((c.links.getD c.cur none).toList ++ c.destroyed)) :=
      List.Perm.append_left _ List.perm_append_comm
    have step2 : ((c2.payloads ++ (c.links.getD c.cur none).toList) ++
        c.destroyed).Perm (c.payloads ++ c.destroyed) :=
      List.Perm.append_right _ hperm
    have hkey : (c2.payloads ++ c2.destroyed).Perm
        (c.payloads ++ c.destroyed) := by
      rw [hD]
      refine List.Perm.trans step1 ?_
      rw [← List.append_assoc]
      exact step2
    have hkeynd : (c2.payloads ++ c2.destroyed).Nodup := hkey.symm.nodup hnd
    obtain ⟨-, -, hdisj⟩ := List.nodup_append.mp hkeynd
    exact ⟨hD, hperm, hkeynd, hdisj⟩
  · show (([] : List α) ++ (c.destroyed ++ c.payloads)).Nodup
    rw [List.nil_append]
    exact List.perm_append_comm.nodup hnd

/-- C5: for any valid ascending three-way comparator (total and
transitive at-most-zero relation), `sort` reorders the ring so that the
forward walk from the post-sort cursor is ascending, repositions both
origin and cursor to the first-ranked link (index 0, which compares at
most 0 against every member), and preserves ring membership; on the test
driver's ids the sorted forward walk is exactly 11, 22, 33, 44, 55, 66,
77, 88, 97, 99. -/
theorem C5_sort_spec (c : Chain α) (cmp : Option α → Option α → Int)
    (htot : ∀ a b, cmp a b ≤ 0 ∨ cmp b a ≤ 0)
    (htrans : ∀ a b e, cmp a b ≤ 0 → cmp b e ≤ 0 → cmp a e ≤ 0)
    (h0 : 0 < c.length) :
    (chain_sort c cmp).cur = 0 ∧
    (chain_sort c cmp).links.Perm c.links ∧
    List.Sorted (fun a b => cmp a b ≤ 0) (chain_sort c cmp).links ∧
    (∀ d ∈ (chain_sort c cmp).links,
      cmp ((chain_sort c cmp).links.getD 0 none) d ≤ 0) ∧
    (chain_sort idsChain cmpIds).links =
      [some 11, some 22, some 33, some 44, some 55, some 66, some 77,
       some 88, some 97, some 99] ∧
    (chain_sort idsChain cmpIds).cur = 0 := by
  have hne : ¬ c.length = 0 := by omega
  haveI : IsTotal (Option α) (fun a b => cmp a b ≤ 0) :=
    ⟨fun a b => htot a b⟩
  haveI : IsTrans (Option α) (fun a b => cmp a b ≤ 0) :=
    ⟨fun a b e => htrans a b e⟩
  have hsorted : List.Sorted (fun a b => cmp a b ≤ 0)
      (c.links.insertionSort (fun a b => cmp a b ≤ 0)) :=
    List.sorted_insertionSort _ _
  unfold chain_sort
  rw [if_neg hne]
  refine ⟨rfl, List.perm_insertionSort _ _, hsorted, ?_, by decide, by decide⟩
  show ∀ d ∈ c.links.insertionSort (fun a b => cmp a b ≤ 0),
    cmp ((c.links.insertionSort (fun a b => cmp a b ≤ 0)).getD 0 none) d ≤ 0
  cases hcons : c.links.insertionSort (fun a b => cmp a b ≤ 0) with
  | nil =>
    intro d hd
    cases hd
  | cons x tl =>
    intro d hd
    rw [hcons] at hsorted
    show cmp x d ≤ 0
    rcases List.mem_cons.mp hd with heq | hmem
    · subst heq
      rcases htot d d with ht | ht <;> exact ht
    · exact List.rel_of_sorted_cons hsorted d hmem

theorem wf_create : WF (chain_create : Chain α) := by
  unfold WF chain_create
  simp

theorem wf_insert (c : Chain α) (d : Option α) (h : WF c) :
    WF (chain_insert c d) := by
  by_cases h0 : c.length = 0
  · unfold chain_insert
    rw [if_pos h0]
    unfold WF
    simp
  · have hpos : 0 < c.length := by omega
    obtain ⟨hcur, hph, hnil⟩ := wf_cur_lt h hpos
    unfold chain_insert
    rw [if_neg h0]
    unfold WF
    refine ⟨by simp, fun _ => ⟨fun hemp => ?_, fun _ => ?_⟩⟩
    · simp at hemp
    · simp only [List.length_append, List.length_take, List.length_cons,
        List.length_drop]
      omega

theorem wf_delete {c c2 : Chain α} (h : WF c)
    (hok : chain_delete c = .ok c2) : WF c2 := by
  have hpos : 0 < c.length := (delete_fields h hok).1
  obtain ⟨hcur, hph, hnil⟩ := wf_cur_lt h hpos
  unfold chain_delete at hok
  rw [if_neg (by omega)] at hok
  by_cases hl1 : c.links.length = 1
  · rw [if_pos hl1] at hok
    injection hok with hok
    subst hok
    unfold WF
    simp
  · rw [if_neg hl1] at hok
    by_cases hc0 : c.cur = 0
    · rw [if_pos hc0] at hok
      injection hok with hok
      subst hok
      have hlen0 : (c.links.eraseIdx 0).length = c.links.length - 1 := by
        rw [List.length_eraseIdx, if_pos (by omega)]
      have hlp : 0 < c.links.length := List.length_pos.mpr hnil
      unfold WF
      refine ⟨by simp, fun _ => ⟨fun hemp => ?_, fun _ => ?_⟩⟩
      · have hemp2 : c.links.eraseIdx 0 = [] := hemp
        rw [hemp2] at hlen0
        simp at hlen0
        show c.links.length - 2 = 0
        omega
      · show c.links.length - 2 < (c.links.eraseIdx 0).length
        omega
    · rw [if_neg hc0] at hok
      injection hok with hok
      subst hok
      have hlenc : (c.links.eraseIdx c.cur).length = c.links.length - 1 := by
        rw [List.length_eraseIdx, if_pos (by omega)]
      have hlp : 0 < c.links.length := List.length_pos.mpr hnil
      unfold WF
      refine ⟨by simp, fun _ => ⟨fun hemp => ?_, fun _ => ?_⟩⟩
      · have hemp2 : c.links.eraseIdx c.cur = [] := hemp
        rw [hemp2] at hlenc
        simp at hlenc
        show c.cur - 1 = 0
        omega
      · show c.cur - 1 < (c.links.eraseIdx c.cur).length
        omega

theorem wf_clear (c : Chain α) : WF (chain_clear c) := by
  unfold WF chain_clear
  simp

theorem wf_move (c : Chain α) (n : Int) (h : WF c) : WF (chain_move c n) := by
  by_cases h0 : c.length = 0
  · unfold chain_move
    rw [if_pos h0]
    exact h
  · have hpos : 0 < c.length := by omega
    obtain ⟨hcur, hph, hnil⟩ := wf_cur_lt h hpos
    have hlen : c.links.length = c.length := by simp [Chain.length, hph]
    have hneInt : (c.length : Int) ≠ 0 := by
      intro hcon
      rw [show ((c.length : Int) = 0 ↔ c.length = 0) from by exact_mod_cast Iff.rfl] at hcon
      exact h0 hcon
    have hltInt : (((c.cur : Int) + n) % (c.length : Int)) < (c.length : Int) :=
      Int.emod_lt_of_pos _ (by exact_mod_cast hpos)
    have hnn : 0 ≤ ((c.cur : Int) + n) % (c.length : Int) :=
      Int.emod_nonneg _ hneInt
    unfold chain_move
    rw [if_neg h0]
    unfold WF
    refine ⟨fun hcon => ?_, fun _ => ⟨fun hemp => ?_, fun _ => ?_⟩⟩
    · rw [show ({ c with cur := (((c.cur : Int) + n) % (c.length : Int)).toNat } :
        Chain α).ph = c.ph from rfl, hph] at hcon
      cases hcon
    · exact absurd hemp hnil
    · show (((c.cur : Int) + n) % (c.length : Int)).toNat < c.links.length
      omega

theorem wf_reset (c : Chain α) (h : WF c) : WF (chain_reset c) := by
  unfold WF chain_reset
  refine ⟨fun hcon => ⟨(h.1 hcon).1, rfl⟩, fun hph => ⟨fun _ => rfl, fun hne => ?_⟩⟩
  show 0 < c.links.length
  exact List.length_pos.mpr hne

theorem wf_trim (c : Chain α) (h : WF c) : WF (chain_trim c) := by
  unfold chain_trim
  split
  · exact h
  rename_i h0
  split
  · unfold WF
    simp
  rename_i hs
  unfold WF
  refine ⟨by simp, fun _ => ⟨fun hemp => absurd (List.isEmpty_iff.mpr hemp) hs,
    fun _ => ?_⟩⟩
  show (if (c.links.drop c.cur).any Option.isSome = true
    then (c.links.take c.cur).countP Option.isSome else 0) <
    (c.links.filter Option.isSome).length
  have hne : c.links.filter Option.isSome ≠ [] :=
    fun hcon => hs (List.isEmpty_iff.mpr hcon)
  split
  · rename_i hany
    rw [← List.countP_eq_length_filter]
    have hsplit2 : c.links.countP Option.isSome =
        (c.links.take c.cur).countP Option.isSome +
        (c.links.drop c.cur).countP Option.isSome := by
      conv_lhs => rw [← List.take_append_drop c.cur c.links]
      rw [List.countP_append]
    have hdrop : 0 < (c.links.drop c.cur).countP Option.isSome :=
      List.countP_pos_iff.mpr (List.any_eq_true.mp hany)
    omega
  · exact List.length_pos.mpr hne

theorem wf_sort (c : Chain α) (cmp : Option α → Option α → Int)
    (h : WF c) : WF (chain_sort c cmp) := by
  unfold chain_sort
  split
  · exact h
  rename_i h0
  have hpos : 0 < c.length := by omega
  obtain ⟨-, hph, hnil⟩ := wf_cur_lt h hpos
  unfold WF
  refine ⟨by simp, fun _ => ⟨fun _ => rfl, fun _ => ?_⟩⟩
  show 0 < (c.links.insertionSort (fun a b => cmp a b ≤ 0)).length
  rw [List.length_insertionSort]
  exact List.length_pos.mpr hnil

theorem reachable_wf {c : Chain α} (h : Reachable c) : WF c := by
  induction h with
  | create => exact wf_create
  | insert d _ ih => exact wf_insert _ d ih
  | delete _ hok ih => exact wf_delete ih hok
  | clear _ ih => exact wf_clear _
  | move n _ ih => exact wf_move _ n ih
  | reset _ ih => exact wf_reset _ ih
  | trim _ ih => exact wf_trim _ ih
  | sort cmp _ ih => exact wf_sort _ cmp ih

theorem iterate_nextIdx (n : Nat) {i : Nat} (hi : i < n) (k : Nat) :
    (nextIdx n)^[k] i = (i + k) % n := by
  induction k with
  | zero => simp [Nat.mod_eq_of_lt hi]
  | succ k ih =>
    rw [Function.iterate_succ_apply', ih]
    unfold nextIdx
    rw [Nat.mod_add_mod, ← Nat.add_assoc]

/-- C6: structural ring invariant for every chain reachable by any
sequence of the public operations — when `length = 0` no link carries
data, and when `length >= 1` the cursor indexes a member, the successor
map `nextIdx length` reaches every member from the cursor (one single
cycle through all `length` members, origin index 0 included), the first
`length` iterates are pairwise distinct links, and successor and
predecessor maps are mutually inverse on members (consistent
doubly-linking). -/
theorem C6_ring_invariant (c : Chain α) (h : Reachable c) :
    WF c ∧
    (c.length = 0 → ∀ d ∈ c.links, d = none) ∧
    (1 ≤ c.length →
      c.cur < c.length ∧ 0 < c.length ∧
      (∀ j, j < c.length →
        ∃ k, k < c.length ∧ (nextIdx c.length)^[k] c.cur = j) ∧
      (∀ k l, k < c.length → l < c.length →
        (nextIdx c.length)^[k] c.cur = (nextIdx c.length)^[l] c.cur →
        k = l) ∧
      (∀ i, i < c.length → nextIdx c.length (prevIdx c.length i) = i ∧
        prevIdx c.length (nextIdx c.length i) = i)) := by
  have hwf := reachable_wf h
  refine ⟨hwf, ?_, ?_⟩
  · intro h0 d hd
    by_cases hp : c.ph = true
    · obtain ⟨hls, -⟩ := hwf.1 hp
      rw [hls] at hd
      simpa using hd
    · have hp2 : c.ph = false := by
        revert hp
        cases c.ph <;> simp
      rw [links_eq_nil_of_len0 hp2 h0] at hd
      cases hd
  · intro h1
    have hpos : 0 < c.length := h1
    obtain ⟨hcur, hph, hnil⟩ := wf_cur_lt hwf hpos
    have hlen : c.links.length = c.length := by simp [Chain.length, hph]
    have hcl : c.cur < c.length := by omega
    refine ⟨hcl, hpos, ?_, ?_, ?_⟩
    · intro j hj
      refine ⟨(j + c.length - c.cur) % c.length, Nat.mod_lt _ hpos, ?_⟩
      rw [iterate_nextIdx _ hcl, Nat.add_mod_mod]
      have hrw : c.cur + (j + c.length - c.cur) = j + c.length := by omega
      rw [hrw, Nat.add_mod_right, Nat.mod_eq_of_lt hj]
    · intro k l hk hl he
      rw [iterate_nextIdx _ hcl, iterate_nextIdx _ hcl] at he
      have hmod : k ≡ l [MOD c.length] :=
        Nat.ModEq.add_left_cancel' c.cur he
      rw [Nat.ModEq, Nat.mod_eq_of_lt hk, Nat.mod_eq_of_lt hl] at hmod
      exact hmod
    · intro i hi
      constructor
      · unfold nextIdx prevIdx
        rw [Nat.mod_add_mod]
        have hrw : i + c.length - 1 + 1 = i + c.length := by omega
        rw [hrw, Nat.add_mod_right, Nat.mod_eq_of_lt hi]
      · unfold nextIdx prevIdx
        have hrw : (i + 1) % c.length + c.length - 1 =
            (i + 1) % c.length + (c.length - 1) := by omega
        rw [hrw, Nat.mod_add_mod]
        have hrw2 : i + 1 + (c.length - 1) = i + c.length := by omega
        rw [hrw2, Nat.add_mod_right, Nat.mod_eq_of_lt hi]

/-! ### Witness theorems: each applies its claim theorem at a concrete
input, discharging the hypotheses there. -/

/-- Witness for C1 at the concrete three-link chain. -/
theorem C1_insert_spec_witness :
    WF demo3 ∧ Chain.length (chain_insert demo3 (some 7)) =
      Chain.length demo3 + 1 :=
  ⟨by decide, (C1_insert_spec demo3 (some 7) (by decide)).1⟩

/-- Witness for C2 at the concrete three-link chain: the hypotheses hold
and `delete` succeeds there. -/
theorem C2_delete_spec_witness :
    WF demo3 ∧ 0 < Chain.length demo3 ∧
    (chain_delete demo3).isOk = true := by
  refine ⟨by decide, by decide, ?_⟩
  obtain ⟨c2, hok, -⟩ := (C2_delete_spec demo3 (by decide)).2 (by decide)
  rw [hok]
  rfl

/-- Witness for C3 at the concrete three-link chain. -/
theorem C3_destructor_accounting_witness :
    WF demo3 ∧ (demo3.payloads ++ demo3.destroyed).Nodup ∧
    (chain_trim demo3).destroyed = demo3.destroyed :=
  ⟨by decide, by decide,
    (C3_destructor_accounting demo3 (by decide) (by decide)).2.2.2⟩

/-- Witness for C4 at the concrete three-link chain. -/
theorem C4_trim_spec_witness :
    demo3.ph = false ∧
    (chain_trim demo3).links = demo3.links.filter Option.isSome :=
  ⟨rfl, (C4_trim_spec demo3 (by decide)).1⟩

/-- Witness for C5 at the sort scenario of the test driver. -/
theorem C5_sort_spec_witness :
    0 < Chain.length idsChain ∧ (chain_sort idsChain cmpIds).cur = 0 :=
  ⟨by decide,
    (C5_sort_spec idsChain cmpIds
      (fun a b => by unfold cmpIds; omega)
      (fun a b e h1 h2 => by unfold cmpIds at h1 h2 ⊢; omega)
      (by decide)).1⟩

/-- Witness for C6 at a concrete reachable chain (one insert after
create). -/
theorem C6_ring_invariant_witness :
    WF (chain_insert (chain_create : Chain Nat) (some 5)) :=
  (C6_ring_invariant _ (Reachable.insert (some 5) Reachable.create)).1

/-- Witness for C7 at the concrete three-link chain with `n = 5`. -/
theorem C7_move_roundtrip_witness :
    0 < Chain.length demo3 ∧ demo3.cur < Chain.length demo3 ∧
    chain_move (chain_move demo3 5) (-5) = demo3 :=
  ⟨by decide, by decide, (C7_move_roundtrip demo3 5 (by decide) (by decide)).1⟩

/-- Witness for C10 at the concrete three-link chain. -/
theorem C10_null_sentinel_witness :
    WF demo3 ∧ demo3.ph = false ∧
    (chain_insert demo3 none).links.getD (chain_insert demo3 none).cur
      none = none :=
  ⟨by decide, rfl, (C10_null_sentinel demo3 (by decide) rfl).1⟩

end RayTL
